import Mathlib

/-!
Verification of the BN254 optimal-ate pairing engine with the on-prove-pairing
variant (ePrint 2024/640).  The engine source (`src/bn256/engine.rs`,
`src/arithmetic/pairing.rs`, `src/tests/field.rs`) is embedded shallowly.

The repository's tower fields (Fq, Fq2, Fq6, Fq12), curve groups (G1, G2) and
their arithmetic live in modules that are not part of the three engine source
files; the engine accesses them through the `Engine` trait contract of
`src/arithmetic/pairing.rs` and the contract of spec section 6.  Accordingly the
embedding is parametric in a context `Ctx Q T` carrying the base-field type `Q`
(Fq), the Fq12 type `T`, and the externally supplied operations, exactly the
operations the engine calls.  Fq2 is represented concretely as a pair over `Q`
(modelled from the spec: Fq2 over Fq with non-residue minus one), because the
engine source manipulates Fq2 components (`c0`, `c1`) directly.
-/

namespace PairingEngine

/-- Fq2 element: pair of base-field elements, components `c0`, `c1`
(the engine source reads and writes these components directly). -/
structure Fq2R (Q : Type) where
  c0 : Q
  c1 : Q
deriving DecidableEq, Repr

/-- G1 affine point.  Modelled from the spec: an affine point with base-field
coordinates plus an identity flag (the engine only reads `x`, `y` and queries
`is_identity`, supplied by the external curve module). -/
structure G1A (Q : Type) where
  x : Q
  y : Q
  infinity : Bool
deriving DecidableEq, Repr

/-- G2 affine point over Fq2, with identity flag (external curve module). -/
structure G2A (Q : Type) where
  x : Fq2R Q
  y : Fq2R Q
  infinity : Bool
deriving DecidableEq, Repr

/-- G2 point in Jacobian coordinates, as mutated by the precomputation loops. -/
structure G2J (Q : Type) where
  x : Fq2R Q
  y : Fq2R Q
  z : Fq2R Q
deriving DecidableEq, Repr

/-- The Gt wrapper around an Fq12 value (`pub struct Gt(pub Fq12)`). -/
structure GtR (T : Type) where
  g : T
deriving DecidableEq, Repr

/-- Context of externally supplied operations: base-field (Fq) arithmetic,
Fq12 arithmetic as listed in spec section 6, the Frobenius-twist constants,
and the external G2 Jacobian point operations invoked by the on-prove
preparation (`into`, `double`, mixed addition, equality). -/
structure Ctx (Q T : Type) where
  qAdd : Q → Q → Q
  qSub : Q → Q → Q
  qMul : Q → Q → Q
  qNeg : Q → Q
  qInv : Q → Option Q
  qZero : Q
  qOne : Q
  tZero : T
  tOne : T
  tMul : T → T → T
  tSquare : T → T
  tCyclo : T → T
  tConj : T → T
  tFrob : Nat → T → T
  tInv : T → Option T
  tMulBy034 : T → Fq2R Q → Fq2R Q → Fq2R Q → T
  frobC1One : Fq2R Q
  frobC1Two : Fq2R Q
  xiToQMinus1Over2 : Fq2R Q
  g2FromA : G2A Q → G2J Q
  g2ToA : G2J Q → G2A Q
  g2Double : G2J Q → G2J Q
  g2AddMixed : G2J Q → G2A Q → G2J Q
  g2Eq : G2J Q → G2J Q → Bool

variable {Q T : Type} [DecidableEq Q] [DecidableEq T]

/-! Fq2 arithmetic, modelled from the spec (section 6): quadratic extension of
Fq with non-residue minus one, supporting add, sub, neg, double, square, mul,
invert.  Multiplication: (a0 + a1 i)(b0 + b1 i) = (a0 b0 - a1 b1) + (a0 b1 + a1 b0) i. -/

def fq2Zero (c : Ctx Q T) : Fq2R Q := ⟨c.qZero, c.qZero⟩

def fq2One (c : Ctx Q T) : Fq2R Q := ⟨c.qOne, c.qZero⟩

def fq2Add (c : Ctx Q T) (a b : Fq2R Q) : Fq2R Q :=
  ⟨c.qAdd a.c0 b.c0, c.qAdd a.c1 b.c1⟩

def fq2Sub (c : Ctx Q T) (a b : Fq2R Q) : Fq2R Q :=
  ⟨c.qSub a.c0 b.c0, c.qSub a.c1 b.c1⟩

def fq2Neg (c : Ctx Q T) (a : Fq2R Q) : Fq2R Q :=
  ⟨c.qNeg a.c0, c.qNeg a.c1⟩

def fq2Double (c : Ctx Q T) (a : Fq2R Q) : Fq2R Q := fq2Add c a a

def fq2Mul (c : Ctx Q T) (a b : Fq2R Q) : Fq2R Q :=
  ⟨c.qSub (c.qMul a.c0 b.c0) (c.qMul a.c1 b.c1),
   c.qAdd (c.qMul a.c0 b.c1) (c.qMul a.c1 b.c0)⟩

def fq2Square (c : Ctx Q T) (a : Fq2R Q) : Fq2R Q := fq2Mul c a a

/-- Fq2 inversion through the norm, `none` exactly when the base-field
inversion of the norm fails. -/
def fq2Inv (c : Ctx Q T) (a : Fq2R Q) : Option (Fq2R Q) :=
  (c.qInv (c.qAdd (c.qMul a.c0 a.c0) (c.qMul a.c1 a.c1))).map fun n =>
    ⟨c.qMul a.c0 n, c.qNeg (c.qMul a.c1 n)⟩

/-- Negation of a G2 affine point (external curve module; negates `y`). -/
def g2ANeg (c : Ctx Q T) (q : G2A Q) : G2A Q :=
  { q with y := fq2Neg c q.y }

/-- `BN_X = 4965661367192848881` (source constant). -/
def BN_X : Nat := 4965661367192848881

/-- `SIX_U_PLUS_2_NAF`: the 65-entry NAF of 6x+2, little-endian
(source constant, transcribed verbatim). -/
def SIX_U_PLUS_2_NAF : List Int :=
  [0, 0, 0, 1, 0, 1, 0, -1, 0, 0, 1, -1, 0, 0, 1, 0, 0, 1, 1, 0, -1, 0, 0, 1,
   0, -1, 0, 0, 0, 0, 1, 1, 1, 0, 0, -1, 0, 0, 1, 0, 0, 0, 0, 0, -1, 0, 0, 1,
   1, 0, 0, -1, 0, 0, 0, 1, 1, 0, -1, 0, 0, 1, 0, 1, 1]

/-- The digits `NAF[i-1]` visited by the loops `for i in (1..65).rev()`,
in visiting order (i = 64 down to 1). -/
def nafDigits : List Int := (SIX_U_PLUS_2_NAF.take 64).reverse

/-! `pow_vartime` (spec section 6 contract, `ff::Field` default): square-and-multiply
over the little-endian u64 limbs of the exponent, limbs high to low, bits 63 down
to 0 within each limb. -/

/-- Little-endian base-2^64 limbs of a natural number, no leading zero limbs
(`BigUint::to_u64_digits`).  Fuel-based for kernel reducibility; fuel `n+1`
always suffices. -/
def toU64Digits : Nat → Nat → List Nat
  | 0, _ => []
  | _ + 1, 0 => []
  | fuel + 1, n => (n % 18446744073709551616) :: toU64Digits fuel (n / 18446744073709551616)

def natDigits (n : Nat) : List Nat := toU64Digits (n + 1) n

/-- One bit of the square-and-multiply: square, then multiply by the base when
bit `i` of the limb is set. -/
def powBitStep (c : Ctx Q T) (x : T) (limb : Nat) (acc : T) (i : Nat) : T :=
  let acc2 := c.tSquare acc
  if (limb >>> i) % 2 = 1 then c.tMul acc2 x else acc2

/-- One limb of `pow_vartime`: bits 63 down to 0. -/
def powLimbStep (c : Ctx Q T) (x : T) (res : T) (limb : Nat) : T :=
  (List.range 64).reverse.foldl (powBitStep c x limb) res

def pow_vartime (c : Ctx Q T) (x : T) (digits : List Nat) : T :=
  digits.reverse.foldl (powLimbStep c x) c.tOne

/-- `x.pow_vartime(n.to_u64_digits())`. -/
def powNat (c : Ctx Q T) (x : T) (n : Nat) : T := pow_vartime c x (natDigits n)

/-! G2Prepared: Jacobian line-coefficient precomputation
(`G2Prepared::from_affine`, engine.rs lines 244-481). -/

/-- Precomputed Jacobian line data: triples of Fq2 values plus infinity flag. -/
structure G2Prepared (Q : Type) where
  coeffs : List (Fq2R Q × Fq2R Q × Fq2R Q)
  infinity : Bool
deriving DecidableEq, Repr

def G2Prepared.is_zero (p : G2Prepared Q) : Bool := p.infinity

/-- `doubling_step` (adaptation of Algorithm 26 of ePrint 2010/354, transcribed
register by register from the source).  Returns the updated Jacobian point and
the coefficient triple. -/
def doubling_step (c : Ctx Q T) (r : G2J Q) : G2J Q × (Fq2R Q × Fq2R Q × Fq2R Q) :=
  let tmp0 := fq2Square c r.x
  let tmp1 := fq2Square c r.y
  let tmp2 := fq2Square c tmp1
  let tmp3 := fq2Double c (fq2Sub c (fq2Sub c (fq2Square c (fq2Add c tmp1 r.x)) tmp0) tmp2)
  let tmp4 := fq2Add c (fq2Double c tmp0) tmp0
  let tmp6 := fq2Add c r.x tmp4
  let tmp5 := fq2Square c tmp4
  let zsquared := fq2Square c r.z
  let newX := fq2Sub c (fq2Sub c tmp5 tmp3) tmp3
  let newZ := fq2Sub c (fq2Sub c (fq2Square c (fq2Add c r.z r.y)) tmp1) zsquared
  let tmp2e := fq2Double c (fq2Double c (fq2Double c tmp2))
  let newY := fq2Sub c (fq2Mul c (fq2Sub c tmp3 newX) tmp4) tmp2e
  let tmp3b := fq2Neg c (fq2Double c (fq2Mul c tmp4 zsquared))
  let tmp1e := fq2Double c (fq2Double c tmp1)
  let tmp6b := fq2Sub c (fq2Sub c (fq2Sub c (fq2Square c tmp6) tmp0) tmp5) tmp1e
  let tmp0b := fq2Double c (fq2Mul c newZ zsquared)
  (⟨newX, newY, newZ⟩, (tmp0b, tmp3b, tmp6b))

/-- `addition_step` (adaptation of Algorithm 27 of ePrint 2010/354, transcribed
register by register from the source). -/
def addition_step (c : Ctx Q T) (r : G2J Q) (q : G2A Q) :
    G2J Q × (Fq2R Q × Fq2R Q × Fq2R Q) :=
  let zsquared := fq2Square c r.z
  let ysquared := fq2Square c q.y
  let t0 := fq2Mul c zsquared q.x
  let t1 := fq2Mul c (fq2Sub c (fq2Sub c (fq2Square c (fq2Add c q.y r.z)) ysquared) zsquared) zsquared
  let t2 := fq2Sub c t0 r.x
  let t3 := fq2Square c t2
  let t4 := fq2Double c (fq2Double c t3)
  let t5 := fq2Mul c t4 t2
  let t6 := fq2Sub c (fq2Sub c t1 r.y) r.y
  let t9 := fq2Mul c t6 q.x
  let t7 := fq2Mul c t4 r.x
  let newX := fq2Sub c (fq2Sub c (fq2Sub c (fq2Square c t6) t5) t7) t7
  let newZ := fq2Sub c (fq2Sub c (fq2Square c (fq2Add c r.z t2)) zsquared) t3
  let t10 := fq2Add c q.y newZ
  let t8 := fq2Mul c (fq2Sub c t7 newX) t6
  let t0b := fq2Double c (fq2Mul c r.y t5)
  let newY := fq2Sub c t8 t0b
  let t10b := fq2Sub c (fq2Sub c (fq2Square c t10) ysquared) (fq2Square c newZ)
  let t9b := fq2Sub c (fq2Double c t9) t10b
  let t10c := fq2Double c newZ
  let t6n := fq2Neg c t6
  let t1b := fq2Double c t6n
  (⟨newX, newY, newZ⟩, (t10c, t1b, t9b))

/-- One iteration of the `for i in (1..65).rev()` body of
`G2Prepared::from_affine`: always a doubling step, plus an addition step with
`q` or `-q` when the NAF digit below is nonzero. -/
def prepLoopStep (c : Ctx Q T) (q negq : G2A Q)
    (st : G2J Q × List (Fq2R Q × Fq2R Q × Fq2R Q)) (e : Int) :
    G2J Q × List (Fq2R Q × Fq2R Q × Fq2R Q) :=
  let (r0, cs0) := st
  let (r1, t) := doubling_step c r0
  let cs1 := cs0 ++ [t]
  if e = 1 then
    let (r2, t2) := addition_step c r1 q
    (r2, cs1 ++ [t2])
  else if e = -1 then
    let (r2, t2) := addition_step c r1 negq
    (r2, cs1 ++ [t2])
  else (r1, cs1)

/-- The Frobenius-twisted point q1 used for the first trailing addition:
x conjugated then multiplied by `FROBENIUS_COEFF_FQ6_C1[1]`, y conjugated then
multiplied by `XI_TO_Q_MINUS_1_OVER_2`. -/
def frobQ1 (c : Ctx Q T) (q : G2A Q) : G2A Q :=
  ⟨fq2Mul c ⟨q.x.c0, c.qNeg q.x.c1⟩ c.frobC1One,
   fq2Mul c ⟨q.y.c0, c.qNeg q.y.c1⟩ c.xiToQMinus1Over2, false⟩

/-- The point minusq2 used for the second trailing addition:
x multiplied by `FROBENIUS_COEFF_FQ6_C1[2]`, y unchanged. -/
def frobQ2 (c : Ctx Q T) (q : G2A Q) : G2A Q :=
  ⟨fq2Mul c q.x c.frobC1Two, q.y, false⟩

/-- `G2Prepared::from_affine` (engine.rs lines 249-480). -/
def G2Prepared.from_affine (c : Ctx Q T) (q : G2A Q) : G2Prepared Q :=
  if q.infinity then ⟨[], true⟩
  else
    let negq := g2ANeg c q
    let st := nafDigits.foldl (prepLoopStep c q negq) (c.g2FromA q, [])
    let a1 := addition_step c st.1 (frobQ1 c q)
    let a2 := addition_step c a1.1 (frobQ2 c q)
    ⟨st.2 ++ [a1.2] ++ [a2.2], false⟩

/-! G2OnProvePrepared: affine (slope, bias) precomputation with per-step
verification (`G2OnProvePrepared::from_affine`, engine.rs lines 498-623).
Assertion failures and failed `invert().unwrap()` calls are modelled as `none`. -/

/-- Affine line data: (slope, bias) pairs, infinity flag, and the original
input point needed by the verifier. -/
structure G2OnProvePrepared (Q : Type) where
  coeffs : List (Fq2R Q × Fq2R Q)
  infinity : Bool
  init_q : G2A Q
deriving DecidableEq, Repr

def G2OnProvePrepared.is_zero (p : G2OnProvePrepared Q) : Bool := p.infinity

def fq2Two (c : Ctx Q T) : Fq2R Q := fq2Double c (fq2One c)

def fq2Three (c : Ctx Q T) : Fq2R Q := fq2Add c (fq2Two c) (fq2One c)

/-- Affine doubling line: alpha = 3x^2 / 2y, bias = y - alpha x, with the
source's inline check that the point lies on the line. -/
def doublingStepA (c : Ctx Q T) (r : G2J Q) : Option (Fq2R Q × Fq2R Q) := do
  let t := c.g2ToA r
  let alpha0 ← fq2Inv c (fq2Mul c t.y (fq2Two c))
  let alpha := fq2Mul c (fq2Mul c (fq2Square c t.x) (fq2Three c)) alpha0
  let bias := fq2Sub c t.y (fq2Mul c alpha t.x)
  if fq2Zero c = fq2Sub c (fq2Sub c t.y (fq2Mul c alpha t.x)) bias then
    some (alpha, bias)
  else none

/-- `double_verify` of the preparation path: checks the line and tangent
identities against the current point, then returns the affine-derived next
point converted to Jacobian form. -/
def doubleVerifyP (c : Ctx Q T) (coeff : Fq2R Q × Fq2R Q) (r : G2J Q) :
    Option (G2J Q) := do
  let (alpha, bias) := coeff
  let ra := c.g2ToA r
  if fq2Zero c = fq2Sub c (fq2Sub c ra.y (fq2Mul c alpha ra.x)) bias then
    if fq2Zero c =
        fq2Sub c (fq2Mul c (fq2Mul c ra.y (fq2Two c)) alpha)
          (fq2Mul c (fq2Square c ra.x) (fq2Three c)) then
      let x3 := fq2Sub c (fq2Square c alpha) (fq2Mul c ra.x (fq2Two c))
      let y3 := fq2Sub c (fq2Neg c (fq2Mul c alpha x3)) bias
      some (c.g2FromA ⟨x3, y3, false⟩)
    else none
  else none

/-- Affine addition line: alpha = (q.y - r.y)/(q.x - r.x), bias = r.y - alpha r.x. -/
def additionStepA (c : Ctx Q T) (r : G2J Q) (q : G2A Q) :
    Option (Fq2R Q × Fq2R Q) := do
  let ra := c.g2ToA r
  let alpha0 ← fq2Inv c (fq2Sub c q.x ra.x)
  let alpha := fq2Mul c (fq2Sub c q.y ra.y) alpha0
  let bias := fq2Sub c ra.y (fq2Mul c alpha ra.x)
  some (alpha, bias)

/-- `addition_verify` of the preparation path: checks that both points lie on
the line, then returns the affine-derived sum converted to Jacobian form. -/
def additionVerifyP (c : Ctx Q T) (coeff : Fq2R Q × Fq2R Q) (r : G2J Q)
    (p : G2A Q) : Option (G2J Q) := do
  let (alpha, bias) := coeff
  let ra := c.g2ToA r
  if fq2Zero c = fq2Sub c (fq2Sub c ra.y (fq2Mul c alpha ra.x)) bias then
    if fq2Zero c = fq2Sub c (fq2Sub c p.y (fq2Mul c alpha p.x)) bias then
      let x3 := fq2Sub c (fq2Sub c (fq2Square c alpha) ra.x) p.x
      let y3 := fq2Sub c (fq2Neg c (fq2Mul c alpha x3)) bias
      some (c.g2FromA ⟨x3, y3, false⟩)
    else none
  else none

/-- One iteration of the `for i in (1..65).rev()` body of
`G2OnProvePrepared::from_affine`: doubling step plus verification against the
independently computed Jacobian double, then the optional NAF addition with the
same verification discipline. -/
def onProveDoublePart (c : Ctx Q T) (st : G2J Q × List (Fq2R Q × Fq2R Q)) :
    Option (G2J Q × List (Fq2R Q × Fq2R Q)) := do
  let (r0, cs0) := st
  let coeff ← doublingStepA c r0
  let t3 ← doubleVerifyP c coeff r0
  let r1 := c.g2Double r0
  if c.g2Eq r1 t3 then some (r1, cs0 ++ [coeff]) else none

def onProveAddPart (c : Ctx Q T) (p : G2A Q) (st : G2J Q × List (Fq2R Q × Fq2R Q)) :
    Option (G2J Q × List (Fq2R Q × Fq2R Q)) := do
  let (r0, cs0) := st
  let coeff ← additionStepA c r0 p
  let t3 ← additionVerifyP c coeff r0 p
  let r1 := c.g2AddMixed r0 p
  if c.g2Eq r1 t3 then some (r1, cs0 ++ [coeff]) else none

def onProveStep (c : Ctx Q T) (q negq : G2A Q)
    (st : G2J Q × List (Fq2R Q × Fq2R Q)) (e : Int) :
    Option (G2J Q × List (Fq2R Q × Fq2R Q)) := do
  let st1 ← onProveDoublePart c st
  if e = 1 then onProveAddPart c q st1
  else if e = -1 then onProveAddPart c negq st1
  else some st1

/-- `G2OnProvePrepared::from_affine` (engine.rs lines 503-622); `none` models
an aborted construction (failed inversion or assertion). -/
def G2OnProvePrepared.from_affine (c : Ctx Q T) (q : G2A Q) :
    Option (G2OnProvePrepared Q) := do
  if q.infinity then some ⟨[], true, q⟩
  else
    let negq := g2ANeg c q
    let st ← nafDigits.foldlM (onProveStep c q negq) (c.g2FromA q, [])
    let st1 ← onProveAddPart c (frobQ1 c q) st
    let st2 ← onProveAddPart c (frobQ2 c q) st1
    some ⟨st2.2, false, q⟩

/-! Miller loops (engine.rs lines 735-1130).  Iterator `next().unwrap()` panics
and assertion failures are modelled as `none`. -/

/-- The `ell` of `multi_miller_loop` / `multi_miller_loop_c_wi`: both
components of the first two coefficients scaled by `p.y` resp. `p.x`, then the
sparse multiplication `mul_by_034`. -/
def ellJ (c : Ctx Q T) (f : T) (co : Fq2R Q × Fq2R Q × Fq2R Q) (p : G1A Q) : T :=
  let c0 : Fq2R Q := ⟨c.qMul co.1.c0 p.y, c.qMul co.1.c1 p.y⟩
  let c1 : Fq2R Q := ⟨c.qMul co.2.1.c0 p.x, c.qMul co.2.1.c1 p.x⟩
  c.tMulBy034 f c0 c1 co.2.2

/-- The `ell` local to `multi_miller_loop_on_prove_pairing_prepare`
(engine.rs lines 979-989). -/
def ellOnProveP (c : Ctx Q T) (f : T) (co : Fq2R Q × Fq2R Q) (p : G1A Q) : T :=
  let m := fq2Neg c (fq2One c)
  let c0 : Fq2R Q := ⟨c.qMul m.c0 p.y, m.c1⟩
  let c1 : Fq2R Q := ⟨c.qMul co.1.c0 p.x, c.qMul co.1.c1 p.x⟩
  c.tMulBy034 f c0 c1 co.2

/-- The `ell` local to `multi_miller_loop_on_prove_pairing`
(engine.rs lines 866-876). -/
def ellOnProveV (c : Ctx Q T) (f : T) (co : Fq2R Q × Fq2R Q) (p : G1A Q) : T :=
  let m := fq2Neg c (fq2One c)
  let c0 : Fq2R Q := ⟨c.qMul m.c0 p.y, m.c1⟩
  let c1 : Fq2R Q := ⟨c.qMul co.1.c0 p.x, c.qMul co.1.c1 p.x⟩
  c.tMulBy034 f c0 c1 co.2

/-- One pass of `for pair in pairs { ell(f, coeffs.next().unwrap(), p) }`:
consumes the head coefficient of every pair in order; `none` when some
iterator is exhausted. -/
def consumeAll {C : Type} (ell : T → C → G1A Q → T) :
    T → List (G1A Q × List C) → Option (T × List (G1A Q × List C))
  | f, [] => some (f, [])
  | _, (_, []) :: _ => none
  | f, (p, co :: cs) :: rest =>
      (consumeAll ell (ell f co p) rest).map fun st => (st.1, (p, cs) :: st.2)

/-- The NAF loop shared by `multi_miller_loop` and
`multi_miller_loop_on_prove_pairing_prepare`: skip the square on the first
iteration, consume a doubling coefficient from each pair, and an addition
coefficient when the digit is nonzero. -/
def mmlLoop {C : Type} (c : Ctx Q T) (ell : T → C → G1A Q → T) :
    Bool → List Int → T → List (G1A Q × List C) →
    Option (T × List (G1A Q × List C))
  | _, [], f, ps => some (f, ps)
  | first, e :: rest, f, ps => do
      let f1 := if first then f else c.tSquare f
      let (f2, ps2) ← consumeAll ell f1 ps
      let (f3, ps3) ← if e ≠ 0 then consumeAll ell f2 ps2 else some (f2, ps2)
      mmlLoop c ell false rest f3 ps3

/-- Pair filtering: terms whose G1 point is the identity or whose prepared
record is zero are dropped. -/
def filterPairs3 (terms : List (G1A Q × G2Prepared Q)) :
    List (G1A Q × List (Fq2R Q × Fq2R Q × Fq2R Q)) :=
  (terms.filter fun t => !t.1.infinity && !t.2.is_zero).map fun t => (t.1, t.2.coeffs)

def filterPairs2 (terms : List (G1A Q × G2OnProvePrepared Q)) :
    List (G1A Q × List (Fq2R Q × Fq2R Q)) :=
  (terms.filter fun t => !t.1.infinity && !t.2.is_zero).map fun t => (t.1, t.2.coeffs)

/-- `multi_miller_loop` (engine.rs lines 735-796). -/
def multi_miller_loop (c : Ctx Q T) (terms : List (G1A Q × G2Prepared Q)) :
    Option (GtR T) := do
  let pairs := filterPairs3 terms
  let (f1, ps1) ← mmlLoop c (ellJ c) true nafDigits c.tOne pairs
  let (f2, ps2) ← consumeAll (ellJ c) f1 ps1
  let (f3, ps3) ← consumeAll (ellJ c) f2 ps2
  if ps3.all fun pr => pr.2.isEmpty then some ⟨f3⟩ else none

/-- `multi_miller_loop_on_prove_pairing_prepare` (engine.rs lines 969-1029). -/
def multi_miller_loop_on_prove_pairing_prepare (c : Ctx Q T)
    (terms : List (G1A Q × G2OnProvePrepared Q)) : Option (GtR T) := do
  let pairs := filterPairs2 terms
  let (f1, ps1) ← mmlLoop c (ellOnProveP c) true nafDigits c.tOne pairs
  let (f2, ps2) ← consumeAll (ellOnProveP c) f1 ps1
  let (f3, ps3) ← consumeAll (ellOnProveP c) f2 ps2
  if ps3.all fun pr => pr.2.isEmpty then some ⟨f3⟩ else none

/-- The NAF loop of `multi_miller_loop_c_wi`: square every iteration (the
accumulator starts at the inverse residue witness), multiply by the witness or
its inverse on nonzero digits, then the line evaluations. -/
def cwiLoop (c : Ctx Q T) (cv cinv : T) :
    List Int → T → List (G1A Q × List (Fq2R Q × Fq2R Q × Fq2R Q)) →
    Option (T × List (G1A Q × List (Fq2R Q × Fq2R Q × Fq2R Q)))
  | [], f, ps => some (f, ps)
  | e :: rest, f, ps => do
      let f1 := c.tSquare f
      let f2 := if e = 1 then c.tMul f1 cinv else if e = -1 then c.tMul f1 cv else f1
      let (f3, ps3) ← consumeAll (ellJ c) f2 ps
      let (f4, ps4) ← if e ≠ 0 then consumeAll (ellJ c) f3 ps3 else some (f3, ps3)
      cwiLoop c cv cinv rest f4 ps4

/-- `multi_miller_loop_c_wi` (engine.rs lines 1033-1123): the final
`assert_eq!(f, Fq12::one())` is modelled by the trailing equality check. -/
def multi_miller_loop_c_wi (c : Ctx Q T) (c_gt wi : GtR T)
    (terms : List (G1A Q × G2Prepared Q)) : Option (GtR T) := do
  let cv := c_gt.g
  let pairs := filterPairs3 terms
  let cinv ← c.tInv cv
  let (f1, ps1) ← cwiLoop c cv cinv nafDigits cinv pairs
  let f2 := c.tMul f1 (c.tFrob 1 cinv)
  let f3 := c.tMul f2 (c.tFrob 2 cv)
  let f4 := c.tMul f3 (c.tFrob 3 cinv)
  let f5 := c.tMul f4 wi.g
  let (f6, ps2) ← consumeAll (ellJ c) f5 ps1
  let (f7, ps3) ← consumeAll (ellJ c) f6 ps2
  if ps3.all fun pr => pr.2.isEmpty then
    if f7 = c.tOne then some ⟨f7⟩ else none
  else none

/-! `multi_miller_loop_on_prove_pairing` (engine.rs lines 800-965): the
verifier path re-derives each line against a running affine point per pair. -/

/-- Verifier-side `double_verify` (engine.rs lines 832-849): checks the line
and tangent identities, then advances the running affine point. -/
def doubleVerifyV (c : Ctx Q T) (coeff : Fq2R Q × Fq2R Q) (r : G2A Q) :
    Option (G2A Q) :=
  let (alpha, bias) := coeff
  if fq2Zero c = fq2Sub c (fq2Sub c r.y (fq2Mul c alpha r.x)) bias then
    if fq2Zero c =
        fq2Sub c (fq2Mul c (fq2Mul c r.y (fq2Two c)) alpha)
          (fq2Mul c (fq2Square c r.x) (fq2Three c)) then
      let x3 := fq2Sub c (fq2Square c alpha) (fq2Mul c r.x (fq2Two c))
      let y3 := fq2Sub c (fq2Neg c (fq2Mul c alpha x3)) bias
      some { r with x := x3, y := y3 }
    else none
  else none

/-- Verifier-side `addition_verify` (engine.rs lines 850-862). -/
def additionVerifyV (c : Ctx Q T) (coeff : Fq2R Q × Fq2R Q) (r : G2A Q)
    (p : G2A Q) : Option (G2A Q) :=
  let (alpha, bias) := coeff
  if fq2Zero c = fq2Sub c (fq2Sub c r.y (fq2Mul c alpha r.x)) bias then
    if fq2Zero c = fq2Sub c (fq2Sub c p.y (fq2Mul c alpha p.x)) bias then
      let x3 := fq2Sub c (fq2Sub c (fq2Square c alpha) r.x) p.x
      let y3 := fq2Sub c (fq2Neg c (fq2Mul c alpha x3)) bias
      some { r with x := x3, y := y3 }
    else none
  else none

/-- One pass of `pairs.iter_mut().zip(next_qs.iter_mut())`: per surviving pair,
consume a coefficient, verify it against (and advance) the corresponding
running point, and accumulate the line. Zip truncation leaves unmatched state
untouched. -/
def consumeVerifyAll (c : Ctx Q T)
    (verify : (Fq2R Q × Fq2R Q) → G2A Q → Option (G2A Q)) :
    T → List (G1A Q × List (Fq2R Q × Fq2R Q)) → List (G2A Q) →
    Option (T × List (G1A Q × List (Fq2R Q × Fq2R Q)) × List (G2A Q))
  | f, [], qs => some (f, [], qs)
  | f, ps, [] => some (f, ps, [])
  | _, (_, []) :: _, _ :: _ => none
  | f, (p, co :: cs) :: ps, q :: qs => do
      let q1 ← verify co q
      let f1 := ellOnProveV c f co p
      let (f2, ps2, qs2) ← consumeVerifyAll c verify f1 ps qs
      some (f2, (p, cs) :: ps2, q1 :: qs2)

/-- Like `consumeVerifyAll` with a third zipped list of per-pair auxiliary
points (the `init_q` / Frobenius-twisted points of the addition steps). -/
def consumeVerifyAllAux {A : Type} (c : Ctx Q T)
    (verify : (Fq2R Q × Fq2R Q) → G2A Q → A → Option (G2A Q)) :
    T → List (G1A Q × List (Fq2R Q × Fq2R Q)) → List (G2A Q) → List A →
    Option (T × List (G1A Q × List (Fq2R Q × Fq2R Q)) × List (G2A Q))
  | f, [], qs, _ => some (f, [], qs)
  | f, ps, [], _ => some (f, ps, [])
  | f, ps, qs, [] => some (f, ps, qs)
  | f, (p, co :: cs) :: ps, q :: qs, a :: as_ => do
      let q1 ← verify co q a
      let f1 := ellOnProveV c f co p
      let (f2, ps2, qs2) ← consumeVerifyAllAux c verify f1 ps qs as_
      some (f2, (p, cs) :: ps2, q1 :: qs2)
  | _, (_, []) :: _, _ :: _, _ :: _ => none

/-- The NAF loop of `multi_miller_loop_on_prove_pairing`: square, conditional
residue update, verified doubling lines, then verified addition lines against
`init_q` (digit 1) or `-init_q` (digit -1). -/
def onProveVerLoop (c : Ctx Q T) (cv cinv : T) (iqs : List (G2A Q)) :
    List Int → T → List (G1A Q × List (Fq2R Q × Fq2R Q)) → List (G2A Q) →
    Option (T × List (G1A Q × List (Fq2R Q × Fq2R Q)) × List (G2A Q))
  | [], f, ps, qs => some (f, ps, qs)
  | e :: rest, f, ps, qs => do
      let f1 := c.tSquare f
      let f2 := if e = 1 then c.tMul f1 cinv else if e = -1 then c.tMul f1 cv else f1
      let (f3, ps3, qs3) ← consumeVerifyAll c (doubleVerifyV c) f2 ps qs
      let (f4, ps4, qs4) ←
        if e = 1 then
          consumeVerifyAllAux c (fun co q a => additionVerifyV c co q a) f3 ps3 qs3 iqs
        else if e = -1 then
          consumeVerifyAllAux c (fun co q a => additionVerifyV c co q (g2ANeg c a)) f3 ps3 qs3 iqs
        else some (f3, ps3, qs3)
      onProveVerLoop c cv cinv iqs rest f4 ps4 qs4

/-- `multi_miller_loop_on_prove_pairing` (engine.rs lines 800-965). -/
def multi_miller_loop_on_prove_pairing (c : Ctx Q T) (c_gt wi : GtR T)
    (terms : List (G1A Q × G2OnProvePrepared Q)) : Option (GtR T) := do
  let cv := c_gt.g
  let init_q := terms.map fun t => t.2.init_q
  let init_frobenius_q := init_q.map fun q => (frobQ1 c q, frobQ2 c q)
  let pairs := filterPairs2 terms
  let cinv ← c.tInv cv
  let (f1, ps1, qs1) ← onProveVerLoop c cv cinv init_q nafDigits cinv pairs init_q
  let f2 := c.tMul f1 (c.tFrob 1 cinv)
  let f3 := c.tMul f2 (c.tFrob 2 cv)
  let f4 := c.tMul f3 (c.tFrob 3 cinv)
  let f5 := c.tMul f4 wi.g
  let (f6, ps2, qs2) ←
    consumeVerifyAllAux c (fun co q a => additionVerifyV c co q a.1) f5 ps1 qs1 init_frobenius_q
  let (f7, ps3, _) ←
    consumeVerifyAllAux c (fun co q a => additionVerifyV c co q a.2) f6 ps2 qs2 init_frobenius_q
  if ps3.all fun pr => pr.2.isEmpty then
    if f7 = c.tOne then some ⟨f7⟩ else none
  else none

/-! Final exponentiation (engine.rs lines 631-733). -/

/-- `exp_by_x`: 64-bit square-and-multiply by `BN_X` with cyclotomic squares. -/
def exp_by_x (c : Ctx Q T) (f : T) : T :=
  (List.range 64).reverse.foldl
    (fun res i =>
      let r2 := c.tCyclo res
      if (BN_X >>> i) % 2 = 1 then c.tMul r2 f else r2)
    c.tOne

/-- The hard part of the final exponentiation
(Devegili/Scott/Dahab addition chain, engine.rs lines 657-729). -/
def final_exp_hard (c : Ctx Q T) (r : T) : T :=
  let fp := c.tFrob 1 r
  let fp2 := c.tFrob 2 r
  let fp3 := c.tFrob 1 fp2
  let fu := exp_by_x c r
  let fu2 := exp_by_x c fu
  let fu3 := exp_by_x c fu2
  let y3 := c.tConj (c.tFrob 1 fu)
  let fu2p := c.tFrob 1 fu2
  let fu3p := c.tFrob 1 fu3
  let y2 := c.tFrob 2 fu2
  let y0 := c.tMul (c.tMul fp fp2) fp3
  let y1 := c.tConj r
  let y5 := c.tConj fu2
  let y4 := c.tConj (c.tMul fu fu2p)
  let y6 := c.tConj (c.tMul fu3 fu3p)
  let y6a := c.tCyclo y6
  let y6b := c.tMul (c.tMul y6a y4) y5
  let t1 := c.tMul (c.tMul y3 y5) y6b
  let y6c := c.tMul y6b y2
  let t1a := c.tCyclo t1
  let t1b := c.tMul t1a y6c
  let t1c := c.tCyclo t1b
  let t0 := c.tMul t1c y1
  let t1d := c.tMul t1c y0
  let t0a := c.tCyclo t0
  c.tMul t0a t1d

/-- `final_exponentiation` (engine.rs lines 633-732): conjugate, invert
(`none` when the inversion fails), the easy part, then the hard part. -/
def final_exponentiation (c : Ctx Q T) (x : T) : Option (GtR T) :=
  (c.tInv x).map fun f2 =>
    let a := c.tMul (c.tConj x) f2
    ⟨final_exp_hard c (c.tMul (c.tFrob 2 a) a)⟩

/-- The easy part as the spec words it (section 4.6 steps 1-2): t =
conj(r) * r⁻¹ followed by frobenius(t, 2) * t.  Stated separately from the
source translation for the refinement theorem of claim C7. -/
def easyPartSpec (c : Ctx Q T) (x : T) : Option T :=
  (c.tInv x).map fun f2 =>
    let a := c.tMul (c.tConj x) f2
    c.tMul (c.tFrob 2 a) a

/-- `pairing` (engine.rs lines 1125-1130). -/
def pairing (c : Ctx Q T) (g1 : G1A Q) (g2 : G2A Q) : Option (GtR T) := do
  let prep := G2Prepared.from_affine c g2
  let u ← multi_miller_loop c [(g1, prep)]
  final_exponentiation c u.g

/-! Residue-witness construction (`src/tests/field.rs` lines 410-541). -/

/-- Extended-Euclid loop for `modInv`, fuel-based for kernel reducibility.
Returns the gcd and the Bezout coefficient of the first argument. -/
def egcdLoop : Nat → Int → Int → Int → Int → Int × Int
  | 0, r0, _, s0, _ => (r0, s0)
  | fuel + 1, r0, r1, s0, s1 =>
    if r1 = 0 then (r0, s0)
    else
      let qq := r0 / r1
      egcdLoop fuel r1 (r0 - qq * r1) s1 (s0 - qq * s1)

/-- Modelled from the spec: `BigUint::modinv(a, n)` of the num-bigint crate
(used by `compute_c_wi`), `some x` with `a * x = 1 mod n` exactly when
`gcd(a, n) = 1`. -/
def modInv (a n : Nat) : Option Nat :=
  let gs := egcdLoop (2 * (a + n) + 2) (a : Int) (n : Int) 1 0
  if gs.1 = 1 then some ((gs.2 % (n : Int) + n) % (n : Int)).toNat else none

/-- `tonelli_shanks_cubic` (field.rs lines 410-443): cubic Tonelli-Shanks.
The final `assert_eq!(r.pow_vartime([3]), a)` is modelled by the trailing
check; `s = 0` aborts (u32 underflow in `s - 1` in a debug build). -/
def tonelli_shanks_cubic (c : Ctx Q T) (a cnr : T) (s t k : Nat) :
    Option (GtR T) := do
  if s = 0 then none
  else
    let r0 := powNat c a t
    let e := 3 ^ (s - 1)
    let exp := 3 ^ s * t
    let cc := pow_vartime c cnr [e]
    let cInv ← c.tInv cnr
    let st := (List.range (s - 1)).foldl
      (fun (st : T × T × T) i =>
        let (h, r, cv) := st
        let delta : Int := (s : Int) - (i + 1) - 1
        let d := if delta < 0 then
            powNat c r (exp / 3 ^ (-delta).toNat)
          else pow_vartime c r [3 ^ delta.toNat]
        let hr :=
          if d = cc then (c.tMul h cv, c.tMul r (pow_vartime c cv [3]))
          else if d = pow_vartime c cc [2] then
            (c.tMul h (pow_vartime c cv [2]),
             c.tMul r (pow_vartime c (pow_vartime c cv [3]) [2]))
          else (h, r)
        (hr.1, hr.2, pow_vartime c cv [3]))
      (c.tOne, r0, cInv)
    let r1 := c.tMul (powNat c a k) st.1
    let r2 ← if t = 3 * k + 1 then c.tInv r1 else some r1
    if pow_vartime c r2 [3] = a then some ⟨r2⟩ else none

/-- Fq modulus (spec section 6). -/
def pModulus : Nat :=
  0x30644e72e131a029b85045b68181585d97816a916871ca8d3c208c16d87cfd47

/-- The Fr order r (field.rs line 455). -/
def rOrder : Nat :=
  21888242871839275222246405745257275088548364400416034343698204186575808495617

/-- The constant lambda of compute_c_wi (field.rs line 459). -/
def lambdaConst : Nat :=
  10486551571378427818905133077457505975146652579011797175399169355881771981095211883813744499745558409789005132135496770941292989421431235276221147148858384772096778432243207188878598198850276842458913349817007302752534892127325269

def expConst : Nat := pModulus ^ 12 - 1

def hConst : Nat := expConst / rOrder

def tConst : Nat := expConst / 3 ^ 3

def kConst : Nat := (tConst + 1) / 3

def mConst : Nat := lambdaConst / rOrder

def mmConst : Nat := mConst / 3

def cofactorCubic : Nat := 3 ^ 2 * tConst

/-- The rejection-sampling search for a cubic-non-residue w (field.rs lines
479-492), over an explicit stream of `Fq12::random` samples: skip z while
`z^cofactor_cubic = 1` (inner while), accept `w = z^t` unless it is one
(outer while). -/
def sampleW (c : Ctx Q T) : List T → Option T
  | [] => none
  | z :: rest =>
    if powNat c z cofactorCubic = c.tOne then sampleW c rest
    else
      let w := powNat c z tConst
      if w = c.tOne then sampleW c rest else some w

/-- The wi selection (field.rs lines 497-511): wi = 1 when f is already a
cubic residue, otherwise w or w^2, asserting the w^2 case works. -/
def chooseWi (c : Ctx Q T) (f w : T) : Option T :=
  if powNat c f cofactorCubic = c.tOne then some c.tOne
  else
    if powNat c (c.tMul f w) cofactorCubic ≠ c.tOne then
      if powNat c (c.tMul (c.tMul f w) w) cofactorCubic = c.tOne then
        some (c.tMul w w)
      else none
    else some w

/-- Final stage of `compute_c_wi` (field.rs lines 536-540): the cubic root c
via Tonelli-Shanks, its non-triviality check, and the verification
`c^lambda = f * wi`. -/
def cwRoot (c : Ctx Q T) (f wi w f3 : T) : Option (GtR T × GtR T) :=
  match tonelli_shanks_cubic c f3 w 3 tConst kConst with
  | none => none
  | some cg =>
    if cg.g ≠ c.tOne then
      if powNat c cg.g lambdaConst = c.tMul f wi then some (cg, ⟨wi⟩) else none
    else none

/-- Root-extraction stage of `compute_c_wi` (field.rs lines 515-533): the
r-th root f2 of the scaled f1 = f * wi and the m-prime-th root f3, with the
non-degeneracy asserts. -/
def cwRoots23 (c : Ctx Q T) (f wi w : T) : Option (GtR T × GtR T) :=
  let f1 := c.tMul f wi
  match modInv rOrder hConst with
  | none => none
  | some rInv =>
    if rInv ≠ 1 then
      let f2 := powNat c f1 rInv
      if f2 ≠ c.tOne then
        match modInv mmConst (rOrder * hConst) with
        | none => none
        | some mmInv =>
          if mmInv ≠ 1 then
            let f3 := powNat c f2 mmInv
            if powNat c f3 cofactorCubic = c.tOne then
              if f3 ≠ c.tOne then cwRoot c f wi w f3 else none
            else none
          else none
      else none
    else none

/-- Middle stage of `compute_c_wi` (field.rs lines 493-515): checks on the
sampled w, the wi choice, and the `lambda = d * m' * r` assert. -/
def cwWithW (c : Ctx Q T) (f w : T) : Option (GtR T × GtR T) :=
  if powNat c w cofactorCubic ≠ c.tOne then
    if powNat c w hConst = c.tOne then
      match chooseWi c f w with
      | none => none
      | some wi =>
        if powNat c wi hConst = c.tOne then
          if lambdaConst = 3 * mmConst * rOrder then cwRoots23 c f wi w
          else none
        else none
    else none
  else none

/-- `compute_c_wi` (field.rs lines 446-541), with every `assert` modelled as a
guard and the `OsRng` samples passed as an explicit stream. -/
def compute_c_wi (c : Ctx Q T) (rng : List T) (f : T) :
    Option (GtR T × GtR T) :=
  if powNat c f hConst = c.tOne then
    match sampleW c rng with
    | none => none
    | some w => cwWithW c f w
  else none

/-! Concrete instantiations of the external-operation context, used to witness
the theorems below on executable inputs. -/

/-- The value denoted by a little-endian list of u64 limbs (limbs truncated to
64 bits, as produced by `toU64Digits`). -/
def digitsVal : List Nat → Nat
  | [] => 0
  | d :: rest => d % 18446744073709551616 + 18446744073709551616 * digitsVal rest

/-- Trivial context over the one-element carrier. -/
def unitCtx : Ctx Unit Unit where
  qAdd _ _ := ()
  qSub _ _ := ()
  qMul _ _ := ()
  qNeg _ := ()
  qInv _ := some ()
  qZero := ()
  qOne := ()
  tZero := ()
  tOne := ()
  tMul _ _ := ()
  tSquare _ := ()
  tCyclo _ := ()
  tConj _ := ()
  tFrob _ _ := ()
  tInv _ := some ()
  tMulBy034 f _ _ _ := f
  frobC1One := ⟨(), ()⟩
  frobC1Two := ⟨(), ()⟩
  xiToQMinus1Over2 := ⟨(), ()⟩
  g2FromA q := ⟨q.x, q.y, ⟨(), ()⟩⟩
  g2ToA r := ⟨r.x, r.y, false⟩
  g2Double r := r
  g2AddMixed r _ := r
  g2Eq _ _ := true

/-- Two-element context: the Fq12 carrier is `Bool` with `true` as one and
`false` as zero; inversion fails exactly at zero. -/
def boolCtx : Ctx Bool Bool where
  qAdd a b := a || b
  qSub a b := xor a b
  qMul a b := a && b
  qNeg a := a
  qInv a := if a then some true else none
  qZero := false
  qOne := true
  tZero := false
  tOne := true
  tMul a b := a && b
  tSquare a := a
  tCyclo a := a
  tConj a := a
  tFrob _ a := a
  tInv a := if a then some true else none
  tMulBy034 f _ _ _ := f
  frobC1One := ⟨true, false⟩
  frobC1Two := ⟨true, false⟩
  xiToQMinus1Over2 := ⟨true, false⟩
  g2FromA q := ⟨q.x, q.y, ⟨true, false⟩⟩
  g2ToA r := ⟨r.x, r.y, false⟩
  g2Double r := r
  g2AddMixed r _ := r
  g2Eq _ _ := true

/-- The cyclic group of order 27 written multiplicatively: the Fq12 carrier is
`Fin 27` under addition, so `pow_vartime` realises scalar multiplication.  This
carrier has the 3-adic structure that the residue-witness construction
exercises. -/
def c27Ctx : Ctx Unit (Fin 27) where
  qAdd _ _ := ()
  qSub _ _ := ()
  qMul _ _ := ()
  qNeg _ := ()
  qInv _ := some ()
  qZero := ()
  qOne := ()
  tZero := 0
  tOne := 0
  tMul a b := a + b
  tSquare a := a + a
  tCyclo a := a + a
  tConj a := a
  tFrob _ a := a
  tInv a := some (-a)
  tMulBy034 f _ _ _ := f
  frobC1One := ⟨(), ()⟩
  frobC1Two := ⟨(), ()⟩
  xiToQMinus1Over2 := ⟨(), ()⟩
  g2FromA q := ⟨q.x, q.y, ⟨(), ()⟩⟩
  g2ToA r := ⟨r.x, r.y, false⟩
  g2Double r := r
  g2AddMixed r _ := r
  g2Eq _ _ := true

/-- The modular inverse of r mod h, stated as a literal so that kernel
evaluation of the residue-witness witness below is shallow. -/
def rInvC : Nat :=
  495819184011867778744231927046742333492451180917315223017345540833046880485481720031136878341141903241966521818658471092566752321606779256340158678675679238405722886654128392203338228575623261160538734808887996935946888297414610216445334190959815200956855428635568184508263913274453942864817234480763055154719338281461936129150171789463489422401982681230261920147923652438266934726901346095892093443898852488218812468761027620988447655860644584419583586883569984588067403598284748297179498734419889699245081714359110559679136004228878808158639412436468707589339209058958785568729925402190575720856279605832146553573981587948304340677613460685405477047119496887534881410757668344088436651291444274840864486870663164657544390995506448087189408281061890434467956047582679858345583941396130713046072603335601764495918026585155498301896749919393

/-- The modular inverse of m-prime mod (r * h), as a literal. -/
def mmInvC : Nat :=
  3753775041447959327193447848193821707440478010616800213041786160353551889209127894774548851528346137161858195194738372671705859140047330273204643676833406546318383724650106097383337591755771114945286258567242500005135559707961933915112603115337515158376548056763201577570376256567561239728399870752134721409027858640025489284754553967244146096864992023523842694004371820475424094955971289302121249444380331355534667181609804777330221589355339518545597474316198708760531372913280276741212494123161713839044519351717976565506070648313643086406769010962395492162533323281453317782225888218712926691450938926144579788949028279296594051734308709363405206405195719042592991939025895775813440845178858031963544440297537517055045186689442459035616394304391001025496743668667860833905770464730795333223012064169001762850626777164658169120262804487357229854261748013686644287355925953307736380254834346060414809007158238238359

/-- A concrete non-identity G2 affine point over the trivial carrier. -/
def qUnitSample : G2A Unit := ⟨⟨(), ()⟩, ⟨(), ()⟩, false⟩

/-- A concrete non-identity G2 affine point over the Bool carrier. -/
def qBoolSample : G2A Bool := ⟨⟨true, true⟩, ⟨true, false⟩, false⟩

/-- A concrete identity (infinity) G1 point over the Bool carrier. -/
def g1BoolId : G1A Bool := ⟨false, false, true⟩

/-- A concrete non-identity G1 point over the Bool carrier. -/
def g1BoolSample : G1A Bool := ⟨true, true, false⟩

/-- A concrete identity G2 affine point over the Bool carrier. -/
def qBoolId : G2A Bool := ⟨⟨false, false⟩, ⟨false, false⟩, true⟩

/-- Coefficients appended per NAF digit by the preparation loops: two for a
nonzero digit (doubling plus addition), one otherwise. -/
def stepWeight (e : Int) : Nat := if e = 1 ∨ e = -1 then 2 else 1

/-- The on-prove prepared record produced for `qUnitSample` over the trivial
carrier: 91 slope/bias pairs. -/
def recUnitSample : G2OnProvePrepared Unit :=
  ⟨List.replicate 91 (⟨(), ()⟩, ⟨(), ()⟩), false, qUnitSample⟩

/-!
Theorems.  The helper lemmas below are shared infrastructure; the claim
theorems (and their witnesses / counterexamples) follow.
-/

set_option maxRecDepth 40000

set_option maxHeartbeats 2000000

lemma c27_tSquare (a : Fin 27) : c27Ctx.tSquare a = a + a := rfl

lemma c27_tMul (a b : Fin 27) : c27Ctx.tMul a b = a + b := rfl

lemma c27_tOne : c27Ctx.tOne = 0 := rfl

lemma c27_bitfold (x : Fin 27) (limb : Nat) :
    ∀ (k : Nat) (a : Fin 27),
      (List.range k).reverse.foldl (powBitStep c27Ctx x limb) a
        = ((2 ^ k : Nat) : Fin 27) * a + ((limb % 2 ^ k : Nat) : Fin 27) * x := by
  intro k
  induction k with
  | zero => intro a; simp [Nat.mod_one]
  | succ k ih =>
    intro a
    rw [List.range_succ, List.reverse_append, List.reverse_singleton,
      List.singleton_append, List.foldl_cons, ih]
    have hsplit : limb % 2 ^ (k + 1) = limb % 2 ^ k + 2 ^ k * (limb / 2 ^ k % 2) := by
      rw [pow_succ, Nat.mod_mul]
    have hshift : limb >>> k = limb / 2 ^ k := Nat.shiftRight_eq_div_pow ..
    rcases Nat.mod_two_eq_zero_or_one (limb / 2 ^ k) with hb | hb
    · have hstep : powBitStep c27Ctx x limb a k = a + a := by
        simp [powBitStep, hshift, hb, c27_tSquare]
      rw [hstep, hsplit, hb]
      push_cast
      ring
    · have hstep : powBitStep c27Ctx x limb a k = a + a + x := by
        simp [powBitStep, hshift, hb, c27_tSquare, c27_tMul]
      rw [hstep, hsplit, hb]
      push_cast
      ring

lemma c27_limbStep (x res : Fin 27) (limb : Nat) :
    powLimbStep c27Ctx x res limb
      = ((18446744073709551616 : Nat) : Fin 27) * res
        + ((limb % 18446744073709551616 : Nat) : Fin 27) * x := by
  have h64 : (2 : Nat) ^ 64 = 18446744073709551616 := by norm_num
  rw [powLimbStep, c27_bitfold, h64]

lemma c27_digitfold (x : Fin 27) :
    ∀ (digits : List Nat) (a : Fin 27),
      digits.reverse.foldl (powLimbStep c27Ctx x) a
        = ((digitsVal digits : Nat) : Fin 27) * x
          + ((18446744073709551616 ^ digits.length : Nat) : Fin 27) * a := by
  intro digits
  induction digits with
  | nil => intro a; simp [digitsVal]
  | cons d rest ih =>
    intro a
    rw [List.reverse_cons, List.foldl_append, List.foldl_cons, List.foldl_nil, ih,
      c27_limbStep]
    show _ = ((digitsVal (d :: rest) : Nat) : Fin 27) * x + _
    rw [digitsVal]
    push_cast
    simp [List.length_cons, pow_succ]
    ring

lemma c27_pow_vartime (x : Fin 27) (digits : List Nat) :
    pow_vartime c27Ctx x digits = ((digitsVal digits : Nat) : Fin 27) * x := by
  rw [pow_vartime, c27_digitfold, c27_tOne]
  simp

lemma digitsVal_toU64 :
    ∀ (fuel n : Nat), n ≤ fuel → digitsVal (toU64Digits fuel n) = n := by
  intro fuel
  induction fuel with
  | zero =>
    intro n h
    have : n = 0 := Nat.le_zero.mp h
    subst this
    rfl
  | succ fuel ih =>
    intro n h
    rcases Nat.eq_zero_or_pos n with h0 | h0
    · subst h0; rfl
    · have hlt : n / 18446744073709551616 < n := Nat.div_lt_self h0 (by norm_num)
      have hle : n / 18446744073709551616 ≤ fuel := by omega
      obtain ⟨m, rfl⟩ : ∃ m, n = m + 1 := ⟨n - 1, by omega⟩
      rw [toU64Digits, digitsVal, ih _ hle]
      all_goals omega

lemma c27_powNat (x : Fin 27) (n : Nat) : powNat c27Ctx x n = (n : Fin 27) * x := by
  rw [powNat, natDigits, c27_pow_vartime, digitsVal_toU64 _ _ (Nat.le_succ n)]

/-! Soundness of the `compute_c_wi` stages (shared helpers). -/

lemma chooseWi_sound (c : Ctx Q T) (f w wi : T)
    (hassoc : ∀ a b d : T, c.tMul (c.tMul a b) d = c.tMul a (c.tMul b d))
    (hone : ∀ a : T, c.tMul a c.tOne = a)
    (h : chooseWi c f w = some wi) :
    powNat c (c.tMul f wi) cofactorCubic = c.tOne := by
  rw [chooseWi] at h
  split at h
  · rename_i hres
    simp only [Option.some_inj] at h
    rw [← h, hone]
    exact hres
  · split at h
    · split at h
      · rename_i hsq
        simp only [Option.some_inj] at h
        rw [← h, ← hassoc]
        exact hsq
      · exact Option.noConfusion h
    · rename_i hnn
      simp only [Option.some_inj] at h
      rw [← h]
      exact not_ne_iff.mp hnn

lemma cwRoot_sound (c : Ctx Q T) (f wi w f3 : T) (cg wiR : GtR T)
    (h : cwRoot c f wi w f3 = some (cg, wiR)) :
    powNat c cg.g lambdaConst = c.tMul f wi ∧ wiR = ⟨wi⟩ := by
  rw [cwRoot] at h
  split at h
  · exact Option.noConfusion h
  · split at h
    · split at h
      · rename_i hfinal
        simp only [Option.some_inj, Prod.mk.injEq] at h
        obtain ⟨h1, h2⟩ := h
        rw [← h1]
        exact ⟨hfinal, h2.symm⟩
      · exact Option.noConfusion h
    · exact Option.noConfusion h

lemma cwRoots23_sound (c : Ctx Q T) (f wi w : T) (cg wiR : GtR T)
    (h : cwRoots23 c f wi w = some (cg, wiR)) :
    powNat c cg.g lambdaConst = c.tMul f wi ∧ wiR = ⟨wi⟩ := by
  rw [cwRoots23] at h
  simp only [ne_eq] at h
  repeat' split at h
  all_goals
    first
    | exact Option.noConfusion h
    | exact cwRoot_sound c f wi w _ cg wiR h

lemma cwWithW_sound (c : Ctx Q T) (f w : T) (cg wiR : GtR T)
    (h : cwWithW c f w = some (cg, wiR)) :
    ∃ wiv, chooseWi c f w = some wiv ∧ wiR = ⟨wiv⟩ ∧
      powNat c cg.g lambdaConst = c.tMul f wiv := by
  rw [cwWithW] at h
  split at h
  · split at h
    · split at h
      · exact Option.noConfusion h
      · rename_i wiv hwiv
        split at h
        · split at h
          · obtain ⟨h1, h2⟩ := cwRoots23_sound c f wiv w cg wiR h
            exact ⟨wiv, hwiv, h2, h1⟩
          · exact Option.noConfusion h
        · exact Option.noConfusion h
    · exact Option.noConfusion h
  · exact Option.noConfusion h

/-- C2: whenever `multi_miller_loop_c_wi` or
`multi_miller_loop_on_prove_pairing` returns normally (does not abort), the
returned Gt value is exactly `Gt(Fq12::one())`: each function asserts
`f = Fq12::one()` as its final step, so a non-identity accumulator is never
returned. -/
theorem C2_c_wi_loops_assert_one (c : Ctx Q T) (cg wi cg2 wi2 : GtR T)
    (terms : List (G1A Q × G2Prepared Q))
    (terms2 : List (G1A Q × G2OnProvePrepared Q)) (g g2 : GtR T)
    (h1 : multi_miller_loop_c_wi c cg wi terms = some g)
    (h2 : multi_miller_loop_on_prove_pairing c cg2 wi2 terms2 = some g2) :
    g = ⟨c.tOne⟩ ∧ g2 = ⟨c.tOne⟩ := by
  constructor
  · rw [multi_miller_loop_c_wi] at h1
    simp only [bind, Option.bind_eq_some] at h1
    obtain ⟨cinv, -, h1⟩ := h1
    obtain ⟨⟨f1, ps1⟩, -, h1⟩ := h1
    obtain ⟨⟨f6, ps2⟩, -, h1⟩ := h1
    obtain ⟨⟨f7, ps3⟩, -, h1⟩ := h1
    split at h1
    · split at h1
      · rename_i hfone
        simp only [Option.some_inj] at h1
        rw [← h1]
        exact congrArg GtR.mk hfone
      · exact Option.noConfusion h1
    · exact Option.noConfusion h1
  · rw [multi_miller_loop_on_prove_pairing] at h2
    simp only [bind, Option.bind_eq_some] at h2
    obtain ⟨cinv, -, h2⟩ := h2
    obtain ⟨⟨f1, ps1, qs1⟩, -, h2⟩ := h2
    obtain ⟨⟨f6, ps2, qs2⟩, -, h2⟩ := h2
    obtain ⟨⟨f7, ps3, qs3⟩, -, h2⟩ := h2
    split at h2
    · split at h2
      · rename_i hfone
        simp only [Option.some_inj] at h2
        rw [← h2]
        exact congrArg GtR.mk hfone
      · exact Option.noConfusion h2
    · exact Option.noConfusion h2

/-- Witness for C2 at concrete executable inputs: both residue-witness Miller
loops succeed on the empty term list over the Bool carrier and return the
identity. -/
theorem C2_c_wi_loops_assert_one_witness :
    (⟨true⟩ : GtR Bool) = ⟨boolCtx.tOne⟩ ∧ (⟨true⟩ : GtR Bool) = ⟨boolCtx.tOne⟩ :=
  C2_c_wi_loops_assert_one boolCtx ⟨true⟩ ⟨true⟩ ⟨true⟩ ⟨true⟩ [] [] ⟨true⟩ ⟨true⟩
    (by decide) (by decide)

/-- C6: whenever `tonelli_shanks_cubic(a, c, s, t, k)` returns a value r, the
cube of r equals a (the final assertion `r^3 = a` holds on every normal
return). -/
theorem C6_tonelli_cube_root (c : Ctx Q T) (a cnr : T) (s t k : Nat) (r : T)
    (h : tonelli_shanks_cubic c a cnr s t k = some ⟨r⟩) :
    pow_vartime c r [3] = a := by
  rw [tonelli_shanks_cubic] at h
  split at h
  · exact Option.noConfusion h
  · simp only [bind, Option.bind_eq_some] at h
    obtain ⟨cInv, hcInv, h⟩ := h
    split at h
    · simp only [Option.bind_eq_some] at h
      obtain ⟨r2, hr2, h⟩ := h
      split at h
      · rename_i hcheck
        simp only [Option.some_inj, GtR.mk.injEq] at h
        rw [← h]
        exact hcheck
      · exact Option.noConfusion h
    · rw [Option.some_bind] at h
      split at h
      · rename_i hcheck
        simp only [Option.some_inj, GtR.mk.injEq] at h
        rw [← h]
        exact hcheck
      · exact Option.noConfusion h

/-- Witness for C6: a concrete successful run over the Bool carrier. -/
theorem C6_tonelli_cube_root_witness : pow_vartime boolCtx true [3] = true :=
  C6_tonelli_cube_root boolCtx true true 3 5 2 true (by decide)

/-- C9: whenever `compute_c_wi(f)` returns a pair (c, wi), the pair satisfies
`c^lambda = f * wi`, and `f * wi` is a cubic residue:
`(f * wi)^cofactor_cubic = 1`.  The ambient-monoid associativity and right
identity of the Fq12 contract are the only field facts used. -/
theorem C9_compute_c_wi_sound (c : Ctx Q T) (rng : List T) (f : T)
    (cg wi : GtR T)
    (hassoc : ∀ a b d : T, c.tMul (c.tMul a b) d = c.tMul a (c.tMul b d))
    (hone : ∀ a : T, c.tMul a c.tOne = a)
    (h : compute_c_wi c rng f = some (cg, wi)) :
    powNat c cg.g lambdaConst = c.tMul f wi.g ∧
    powNat c (c.tMul f wi.g) cofactorCubic = c.tOne := by
  rw [compute_c_wi] at h
  split at h
  · split at h
    · exact Option.noConfusion h
    · rename_i w hw
      obtain ⟨wiv, hwiv, hR, hpow⟩ := cwWithW_sound c f w cg wi h
      subst hR
      exact ⟨hpow, chooseWi_sound c f w wiv hassoc hone hwiv⟩
  · exact Option.noConfusion h

/-- Witness for C9: a complete successful `compute_c_wi` run over the order-27
cyclic carrier with the real constants p, r, lambda; the returned pair is
(c, wi) = (5, 14) in additive notation and satisfies both conclusions. -/
theorem C9_compute_c_wi_sound_witness :
    powNat c27Ctx ((5 : Fin 27)) lambdaConst = c27Ctx.tMul 1 14 ∧
    powNat c27Ctx (c27Ctx.tMul 1 14) cofactorCubic = c27Ctx.tOne :=
  C9_compute_c_wi_sound c27Ctx [1] 1 ⟨5⟩ ⟨14⟩
    (fun a b d => add_assoc a b d)
    (fun a => add_zero a)
    (by
      have hmi1 : modInv rOrder hConst = some rInvC := by decide
      have hmi2 : modInv mmConst (rOrder * hConst) = some mmInvC := by decide
      have hs : sampleW c27Ctx [(1 : Fin 27)] = some 14 := by
        simp only [sampleW, c27_powNat]
        decide
      have hcw : chooseWi c27Ctx (1 : Fin 27) 14 = some 14 := by
        simp only [chooseWi, c27_powNat]
        decide
      have hroot : cwRoot c27Ctx (1 : Fin 27) 14 14 15 = some (⟨5⟩, ⟨14⟩) := by
        simp only [cwRoot, tonelli_shanks_cubic, c27_powNat]
        decide
      have hf3 : ((mmInvC : Fin 27)) * ((rInvC : Fin 27) * c27Ctx.tMul 1 14) = 15 := by
        decide
      have hr23 : cwRoots23 c27Ctx (1 : Fin 27) 14 14 = some (⟨5⟩, ⟨14⟩) := by
        simp only [cwRoots23, hmi1, hmi2, c27_powNat, hf3, hroot]
        decide
      have hww : cwWithW c27Ctx (1 : Fin 27) 14 = some (⟨5⟩, ⟨14⟩) := by
        unfold cwWithW
        rw [hcw]
        simp only [c27_powNat, hr23]
        decide
      unfold compute_c_wi
      rw [hs]
      simp only [c27_powNat, hww]
      decide)


/-- C7: `final_exponentiation` fails (aborts on the failed Fq12 inversion)
exactly when the wrapped Fq12 value is zero; for every nonzero input it
returns normally, computing the easy part conj(r) * r-inverse followed by
frobenius(t, 2) * t and then the hard-part addition chain. -/
theorem C7_final_exponentiation_fails_iff_zero (c : Ctx Q T) (x : T)
    (hinv : ∀ y : T, c.tInv y = none ↔ y = c.tZero) :
    (final_exponentiation c x = none ↔ x = c.tZero) ∧
    final_exponentiation c x = (easyPartSpec c x).map fun t => ⟨final_exp_hard c t⟩ := by
  constructor
  · rw [final_exponentiation, Option.map_eq_none']
    exact hinv x
  · cases hx : c.tInv x with
    | none => rw [final_exponentiation, easyPartSpec, hx]; rfl
    | some v => rw [final_exponentiation, easyPartSpec, hx]; rfl

/-- Witness for C7 over the Bool carrier, whose inversion fails exactly at
zero: the final exponentiation of the nonzero element succeeds. -/
theorem C7_final_exponentiation_fails_iff_zero_witness :
    (final_exponentiation boolCtx true = none ↔ (true : Bool) = boolCtx.tZero) ∧
    final_exponentiation boolCtx true
      = (easyPartSpec boolCtx true).map fun t => ⟨final_exp_hard boolCtx t⟩ :=
  C7_final_exponentiation_fails_iff_zero boolCtx true (by decide)

/-- C8: in both on-prove Miller loops, each ell step with coefficient
(alpha, beta) and G1 point P calls `f.mul_by_034(c0, c1, beta)` where c0 is
minus one broadcast into Fq2 with its c0 component multiplied by P.y, and c1
is alpha with both components multiplied by P.x; moreover the two local ell
routines coincide. -/
theorem C8_on_prove_ell_shape (c : Ctx Q T) (f : T) (co : Fq2R Q × Fq2R Q)
    (p : G1A Q) :
    ellOnProveP c f co p
      = c.tMulBy034 f ⟨c.qMul (c.qNeg c.qOne) p.y, c.qNeg c.qZero⟩
          ⟨c.qMul co.1.c0 p.x, c.qMul co.1.c1 p.x⟩ co.2
    ∧ ellOnProveV c f co p = ellOnProveP c f co p :=
  ⟨rfl, rfl⟩

/-! Shared lemmas: the Miller loops on an empty surviving-pair list. -/

lemma mmlLoop_no_pairs {C : Type} (c : Ctx Q T) (ell : T → C → G1A Q → T)
    (hsq : c.tSquare c.tOne = c.tOne) :
    ∀ (l : List Int) (first : Bool),
      mmlLoop c ell first l c.tOne [] = some (c.tOne, []) := by
  intro l
  induction l with
  | nil => intro first; rfl
  | cons e rest ih =>
    intro first
    have hf1 : (if first then c.tOne else c.tSquare c.tOne) = c.tOne := by
      cases first <;> simp [hsq]
    rw [mmlLoop]
    simp only [hf1, consumeAll, Option.some_bind]
    split
    · exact ih false
    · exact ih false

lemma mml_empty_pairs (c : Ctx Q T) (terms : List (G1A Q × G2Prepared Q))
    (hf : filterPairs3 terms = []) (hsq : c.tSquare c.tOne = c.tOne) :
    multi_miller_loop c terms = some ⟨c.tOne⟩ := by
  rw [multi_miller_loop, hf, mmlLoop_no_pairs c _ hsq]
  rfl

lemma mmlPrep_empty_pairs (c : Ctx Q T)
    (terms : List (G1A Q × G2OnProvePrepared Q))
    (hf : filterPairs2 terms = []) (hsq : c.tSquare c.tOne = c.tOne) :
    multi_miller_loop_on_prove_pairing_prepare c terms = some ⟨c.tOne⟩ := by
  rw [multi_miller_loop_on_prove_pairing_prepare, hf, mmlLoop_no_pairs c _ hsq]
  rfl

lemma filterPairs3_eq_nil (terms : List (G1A Q × G2Prepared Q))
    (hid : ∀ t ∈ terms, t.1.infinity = true ∨ t.2.infinity = true) :
    filterPairs3 terms = [] := by
  rw [filterPairs3]
  have hnil : terms.filter (fun t => !t.1.infinity && !t.2.is_zero) = [] := by
    rw [List.filter_eq_nil_iff]
    intro t ht
    rcases hid t ht with h | h <;> simp [h, G2Prepared.is_zero]
  rw [hnil]
  rfl

lemma filterPairs2_eq_nil (terms : List (G1A Q × G2OnProvePrepared Q))
    (hid : ∀ t ∈ terms, t.1.infinity = true ∨ t.2.infinity = true) :
    filterPairs2 terms = [] := by
  rw [filterPairs2]
  have hnil : terms.filter (fun t => !t.1.infinity && !t.2.is_zero) = [] := by
    rw [List.filter_eq_nil_iff]
    intro t ht
    rcases hid t ht with h | h <;> simp [h, G2OnProvePrepared.is_zero]
  rw [hnil]
  rfl

lemma filterPairs3_cons_id (p : G1A Q) (q : G2Prepared Q)
    (ts : List (G1A Q × G2Prepared Q))
    (h : p.infinity = true ∨ q.is_zero = true) :
    filterPairs3 ((p, q) :: ts) = filterPairs3 ts := by
  rw [filterPairs3, filterPairs3]
  have hcond : (!(p, q).1.infinity && !(p, q).2.is_zero) = false := by
    rcases h with h | h <;> simp [h]
  rw [List.filter_cons, hcond]
  simp

lemma exp_by_x_one (c : Ctx Q T) (h1 : c.tMul c.tOne c.tOne = c.tOne)
    (h3 : c.tCyclo c.tOne = c.tOne) : exp_by_x c c.tOne = c.tOne := by
  rw [exp_by_x]
  have key : ∀ (l : List Nat) (a : T), a = c.tOne →
      l.foldl (fun res i =>
        let r2 := c.tCyclo res
        if (BN_X >>> i) % 2 = 1 then c.tMul r2 c.tOne else r2) a = c.tOne := by
    intro l
    induction l with
    | nil => intro a ha; exact ha
    | cons i rest ih =>
      intro a ha
      rw [List.foldl_cons]
      apply ih
      subst ha
      simp only [h3]
      split <;> simp [h1]
  exact key _ _ rfl

lemma final_exp_hard_one (c : Ctx Q T) (h1 : c.tMul c.tOne c.tOne = c.tOne)
    (h3 : c.tCyclo c.tOne = c.tOne) (h4 : c.tConj c.tOne = c.tOne)
    (h5 : ∀ k, c.tFrob k c.tOne = c.tOne) :
    final_exp_hard c c.tOne = c.tOne := by
  have he := exp_by_x_one c h1 h3
  simp only [final_exp_hard, he, h1, h3, h4, h5]

lemma final_exponentiation_one (c : Ctx Q T)
    (h1 : c.tMul c.tOne c.tOne = c.tOne) (h3 : c.tCyclo c.tOne = c.tOne)
    (h4 : c.tConj c.tOne = c.tOne) (h5 : ∀ k, c.tFrob k c.tOne = c.tOne)
    (h6 : c.tInv c.tOne = some c.tOne) :
    final_exponentiation c c.tOne = some ⟨c.tOne⟩ := by
  rw [final_exponentiation, h6, Option.map_some']
  simp only [h4, h1, h5, final_exp_hard_one c h1 h3 h4 h5]

lemma from_affine_identity (c : Ctx Q T) (q : G2A Q) (hq : q.infinity = true) :
    G2Prepared.from_affine c q = ⟨[], true⟩ := by
  rw [G2Prepared.from_affine, if_pos hq]

/-- C4: `pairing(identity_G1, Q) = Gt identity` and
`pairing(P, identity_G2) = Gt identity`; a term whose G1 point is the identity
or whose prepared G2 record is zero is silently filtered out of the multi
Miller loop and contributes nothing to the accumulator.  The hypotheses are
the spec-section-6 facts that the Fq12 operations fix the identity. -/
theorem C4_identity_absorption (c : Ctx Q T)
    (h1 : c.tMul c.tOne c.tOne = c.tOne) (h2 : c.tSquare c.tOne = c.tOne)
    (h3 : c.tCyclo c.tOne = c.tOne) (h4 : c.tConj c.tOne = c.tOne)
    (h5 : ∀ k, c.tFrob k c.tOne = c.tOne) (h6 : c.tInv c.tOne = some c.tOne)
    (P1 P2 : G1A Q) (Q1 Q2 : G2A Q) (p : G1A Q) (q : G2Prepared Q)
    (ts : List (G1A Q × G2Prepared Q))
    (hP1 : P1.infinity = true) (hQ2 : Q2.infinity = true)
    (hpq : p.infinity = true ∨ q.is_zero = true) :
    pairing c P1 Q1 = some ⟨c.tOne⟩ ∧
    pairing c P2 Q2 = some ⟨c.tOne⟩ ∧
    multi_miller_loop c ((p, q) :: ts) = multi_miller_loop c ts := by
  refine ⟨?_, ?_, ?_⟩
  · have hm : multi_miller_loop c [(P1, G2Prepared.from_affine c Q1)] = some ⟨c.tOne⟩ := by
      apply mml_empty_pairs c _ _ h2
      apply filterPairs3_eq_nil
      intro t ht
      simp only [List.mem_singleton] at ht
      subst ht
      exact Or.inl hP1
    rw [pairing, hm]
    exact final_exponentiation_one c h1 h3 h4 h5 h6
  · have hm : multi_miller_loop c [(P2, G2Prepared.from_affine c Q2)] = some ⟨c.tOne⟩ := by
      apply mml_empty_pairs c _ _ h2
      apply filterPairs3_eq_nil
      intro t ht
      simp only [List.mem_singleton] at ht
      subst ht
      right
      rw [from_affine_identity c Q2 hQ2]
    rw [pairing, hm]
    exact final_exponentiation_one c h1 h3 h4 h5 h6
  · rw [multi_miller_loop, multi_miller_loop, filterPairs3_cons_id p q ts hpq]

/-- Witness for C4 over the Bool carrier with concrete identity and
non-identity points. -/
theorem C4_identity_absorption_witness :
    pairing boolCtx g1BoolId qBoolSample = some ⟨boolCtx.tOne⟩ ∧
    pairing boolCtx g1BoolSample qBoolId = some ⟨boolCtx.tOne⟩ ∧
    multi_miller_loop boolCtx ((g1BoolId, (⟨[], true⟩ : G2Prepared Bool)) :: []) =
      multi_miller_loop boolCtx ([] : List (G1A Bool × G2Prepared Bool)) :=
  C4_identity_absorption boolCtx (by decide) (by decide) (by decide) (by decide)
    (fun _ => rfl) (by decide) g1BoolId g1BoolSample qBoolSample qBoolId
    g1BoolId ⟨[], true⟩ [] rfl rfl (Or.inl rfl)

/-- C10: `multi_miller_loop` applied to an empty slice, or to terms in which
every pair contains an identity G1 point or a zero (infinity) prepared record,
returns exactly `Gt(Fq12::one())` before any final exponentiation -- the
accumulator stays one through all the loop squarings -- and the same holds for
`multi_miller_loop_on_prove_pairing_prepare` with `G2OnProvePrepared` inputs. -/
theorem C10_miller_loop_trivial_terms (c : Ctx Q T)
    (hsq : c.tSquare c.tOne = c.tOne)
    (terms : List (G1A Q × G2Prepared Q))
    (terms2 : List (G1A Q × G2OnProvePrepared Q))
    (hid : ∀ t ∈ terms, t.1.infinity = true ∨ t.2.infinity = true)
    (hid2 : ∀ t ∈ terms2, t.1.infinity = true ∨ t.2.infinity = true) :
    multi_miller_loop c ([] : List (G1A Q × G2Prepared Q)) = some ⟨c.tOne⟩ ∧
    multi_miller_loop c terms = some ⟨c.tOne⟩ ∧
    multi_miller_loop_on_prove_pairing_prepare c terms2 = some ⟨c.tOne⟩ :=
  ⟨mml_empty_pairs c [] rfl hsq,
   mml_empty_pairs c terms (filterPairs3_eq_nil terms hid) hsq,
   mmlPrep_empty_pairs c terms2 (filterPairs2_eq_nil terms2 hid2) hsq⟩

/-- Witness for C10 over the Bool carrier. -/
theorem C10_miller_loop_trivial_terms_witness :
    multi_miller_loop boolCtx ([] : List (G1A Bool × G2Prepared Bool)) = some ⟨boolCtx.tOne⟩ ∧
    multi_miller_loop boolCtx [(g1BoolId, (⟨[], false⟩ : G2Prepared Bool))] = some ⟨boolCtx.tOne⟩ ∧
    multi_miller_loop_on_prove_pairing_prepare boolCtx
      [(g1BoolSample, (⟨[], true, qBoolId⟩ : G2OnProvePrepared Bool))] = some ⟨boolCtx.tOne⟩ :=
  C10_miller_loop_trivial_terms boolCtx (by decide) _ _ (by decide) (by decide)

/-! Coefficient-count lemmas for C3. -/

lemma prepLoopStep_len (c : Ctx Q T) (q negq : G2A Q)
    (st : G2J Q × List (Fq2R Q × Fq2R Q × Fq2R Q)) (e : Int) :
    ((prepLoopStep c q negq st e).2).length = st.2.length + stepWeight e := by
  obtain ⟨r0, cs0⟩ := st
  rw [prepLoopStep, stepWeight]
  by_cases he1 : e = 1
  · simp [he1]
  · by_cases he2 : e = -1
    · simp [he1, he2]
    · simp [he1, he2]

lemma prepLoop_len (c : Ctx Q T) (q negq : G2A Q) :
    ∀ (l : List Int) (st : G2J Q × List (Fq2R Q × Fq2R Q × Fq2R Q)),
      ((l.foldl (prepLoopStep c q negq) st).2).length
        = st.2.length + (l.map stepWeight).sum := by
  intro l
  induction l with
  | nil => intro st; simp
  | cons e rest ih =>
    intro st
    rw [List.foldl_cons, ih, prepLoopStep_len]
    simp [Nat.add_assoc]

lemma nafWeightSum : (nafDigits.map stepWeight).sum = 89 := by decide

lemma from_affine_len (c : Ctx Q T) (q : G2A Q) (hq : q.infinity = false) :
    (G2Prepared.from_affine c q).coeffs.length = 91 := by
  rw [G2Prepared.from_affine, if_neg (by simp [hq])]
  simp only [List.length_append, List.length_singleton, prepLoop_len, nafWeightSum,
    List.length_nil]

lemma onProveDoublePart_len (c : Ctx Q T)
    (st st2 : G2J Q × List (Fq2R Q × Fq2R Q)) (h : onProveDoublePart c st = some st2) :
    st2.2.length = st.2.length + 1 := by
  obtain ⟨r0, cs0⟩ := st
  rw [onProveDoublePart] at h
  simp only [bind, Option.bind_eq_some] at h
  obtain ⟨coeff, -, h⟩ := h
  obtain ⟨t3, -, h⟩ := h
  split at h
  · simp only [Option.some_inj] at h
    rw [← h]
    simp
  · exact Option.noConfusion h

lemma onProveAddPart_len (c : Ctx Q T) (p : G2A Q)
    (st st2 : G2J Q × List (Fq2R Q × Fq2R Q)) (h : onProveAddPart c p st = some st2) :
    st2.2.length = st.2.length + 1 := by
  obtain ⟨r0, cs0⟩ := st
  rw [onProveAddPart] at h
  simp only [bind, Option.bind_eq_some] at h
  obtain ⟨coeff, -, h⟩ := h
  obtain ⟨t3, -, h⟩ := h
  split at h
  · simp only [Option.some_inj] at h
    rw [← h]
    simp
  · exact Option.noConfusion h

lemma onProveStep_len (c : Ctx Q T) (q negq : G2A Q)
    (st st2 : G2J Q × List (Fq2R Q × Fq2R Q)) (e : Int)
    (h : onProveStep c q negq st e = some st2) :
    st2.2.length = st.2.length + stepWeight e := by
  rw [onProveStep] at h
  simp only [bind, Option.bind_eq_some] at h
  obtain ⟨st1, h1, h⟩ := h
  have hd := onProveDoublePart_len c st st1 h1
  rw [stepWeight]
  split at h
  · rename_i he
    have ha := onProveAddPart_len c q st1 st2 h
    simp [he, ha, hd]
  · split at h
    · rename_i hne he
      have ha := onProveAddPart_len c negq st1 st2 h
      simp [he, ha, hd]
    · rename_i hne hne2
      simp only [Option.some_inj] at h
      rw [← h]
      simp [hne, hne2, hd]

lemma onProveLoop_len (c : Ctx Q T) (q negq : G2A Q) :
    ∀ (l : List Int) (st st2 : G2J Q × List (Fq2R Q × Fq2R Q)),
      l.foldlM (onProveStep c q negq) st = some st2 →
      st2.2.length = st.2.length + (l.map stepWeight).sum := by
  intro l
  induction l with
  | nil =>
    intro st st2 h
    simp only [List.foldlM_nil, pure, Option.some_inj] at h
    rw [← h]
    simp
  | cons e rest ih =>
    intro st st2 h
    rw [List.foldlM_cons] at h
    simp only [bind, Option.bind_eq_some] at h
    obtain ⟨st1, h1, h⟩ := h
    rw [ih st1 st2 h, onProveStep_len c q negq st st1 e h1]
    simp [Nat.add_assoc]

lemma onProve_from_affine_len (c : Ctx Q T) (q : G2A Q)
    (rec : G2OnProvePrepared Q) (hq : q.infinity = false)
    (h : G2OnProvePrepared.from_affine c q = some rec) :
    rec.coeffs.length = 91 := by
  rw [G2OnProvePrepared.from_affine] at h
  rw [if_neg (by simp [hq])] at h
  simp only [bind, Option.bind_eq_some] at h
  obtain ⟨st, hst, h⟩ := h
  obtain ⟨st1, hst1, h⟩ := h
  obtain ⟨st2, hst2, h⟩ := h
  simp only [Option.some_inj] at h
  have hl := onProveLoop_len c q (g2ANeg c q) nafDigits (c.g2FromA q, []) st hst
  have hl1 := onProveAddPart_len c (frobQ1 c q) st st1 hst1
  have hl2 := onProveAddPart_len c (frobQ2 c q) st1 st2 hst2
  rw [← h]
  rw [hl2, hl1, hl]
  simp [nafWeightSum]

/-- Counterexample for C3 as stated: the Jacobian preparation of a concrete
non-identity point does not produce 87 coefficient triples (it produces 91:
the loop performs 64 doublings, the NAF positions 0..63 hold 25 nonzero
digits, and two trailing Frobenius additions follow). -/
theorem C3_counterexample :
    ¬ (G2Prepared.from_affine unitCtx qUnitSample).coeffs.length = 87 := by
  have hl := from_affine_len unitCtx qUnitSample rfl
  omega

/-- C3 amended: for every non-identity G2 affine point q,
`G2Prepared::from_affine(q)` produces exactly 91 coefficient triples
(64 doublings plus 25 NAF additions plus 2 trailing Frobenius additions), and
every successful `G2OnProvePrepared::from_affine(q)` produces the identical
count of 91 slope/bias pairs. -/
theorem C3_coeff_count_amended (c : Ctx Q T) (q : G2A Q)
    (rec : G2OnProvePrepared Q) (hq : q.infinity = false)
    (hop : G2OnProvePrepared.from_affine c q = some rec) :
    (G2Prepared.from_affine c q).coeffs.length = 91 ∧ rec.coeffs.length = 91 :=
  ⟨from_affine_len c q hq, onProve_from_affine_len c q rec hq hop⟩

/-- Witness for the amended C3 at a concrete non-identity point over the
trivial carrier, where the on-prove preparation runs to completion. -/
theorem C3_coeff_count_amended_witness :
    (G2Prepared.from_affine unitCtx qUnitSample).coeffs.length = 91 ∧
    recUnitSample.coeffs.length = 91 :=
  C3_coeff_count_amended unitCtx qUnitSample recUnitSample rfl (by decide)


end PairingEngine
